import Mathlib

/-!
Verification development for the git-who repository.

We shallowly embed the parts of the source the claims are about:

* the older `internal/git` package (commit parser, numstat and rename-path
  parsing) — functions `parseDiffPath`, `parseFileDiff`, `parseCommits`;
* the newer `internal/git` package (`LimitDiffsByPath` and its `Commit` and
  `FileDiff` records);
* the `tree` command's output post-processing (`toLines` in `tree.go`);
* spec-modelled components whose implementation is not under `src/`
  (the tally engine, the newer `ParseCommits`, the gob cache backend).

Strings from the source are embedded as `List Char` where character-level
processing matters (the rename regular expression, tab splitting), and as
`String` elsewhere.  Go `int` is modelled as `Int` (no machine-width overflow
is relevant to any claim: the values are line counts and unix timestamps).
-/

namespace git

/-- `beginsWith needle hay` is true when `needle` is a prefix of `hay`.
Models the prefix test underlying `strings.Contains`. -/
def beginsWith : List Char → List Char → Bool
  | [], _ => true
  | _ :: _, [] => false
  | a :: as, b :: bs => a = b && beginsWith as bs

/-- `containsSub needle hay` models Go `strings.Contains(hay, needle)`. -/
def containsSub (needle : List Char) : List Char → Bool
  | [] => needle.isEmpty
  | c :: t => beginsWith needle (c :: t) || containsSub needle t

/-- Split on a separator character, keeping empty fields; models Go
`strings.Split(s, sep)` for a one-character separator. -/
def splitOnChar (sep : Char) : List Char → List (List Char)
  | [] => [[]]
  | c :: t =>
    if c = sep then [] :: splitOnChar sep t
    else
      match splitOnChar sep t with
      | [] => [[c]]
      | h :: r => (c :: h) :: r

/-- Interleave a separator character between fields; models the builder loop
in `parseDiffPath` that writes the separator after every part but the last. -/
def intercalateSep (sep : Char) : List (List Char) → List Char
  | [] => []
  | [p] => p
  | p :: q :: r => p ++ sep :: intercalateSep sep (q :: r)

/-- Left-to-right decimal accumulation over an all-digit list; helper for
`atoi`. -/
def digitsVal : List Char → Nat → Option Nat
  | [], acc => some acc
  | c :: t, acc => if c.isDigit then digitsVal t (acc * 10 + (c.toNat - 48)) else none

/-- Decimal value of a nonempty all-digit list. -/
def digitsToNat (l : List Char) : Option Nat :=
  if l.isEmpty then none else digitsVal l 0

/-- Models Go `strconv.Atoi` (`ParseInt(s, 10, 0)` with a 64-bit `int`): an
optional sign followed by at least one digit; the range error is modelled
too, so a value outside the signed 64-bit range is an error exactly as in
the program. -/
def atoi : List Char → Option Int
  | '+' :: rest =>
    (digitsToNat rest).bind (fun n => if n ≤ 2 ^ 63 - 1 then some (n : Int) else none)
  | '-' :: rest =>
    (digitsToNat rest).bind (fun n => if n ≤ 2 ^ 63 then some (-(n : Int)) else none)
  | l =>
    (digitsToNat l).bind (fun n => if n ≤ 2 ^ 63 - 1 then some (n : Int) else none)

/-!
`fmt.Fprintf` with the written piece as the format string.

`parseDiffPath` writes every path piece with `fmt.Fprintf(&builder, piece)`
— the piece is the *format string* and no operands are supplied — so a
piece containing `%` is processed as a directive: `%%` collapses to `%`, a
`%` at the end of the piece yields `%!(NOVERB)`, a verb with no operand
yields `%!v(MISSING)`, an argument index always yields `%!v(BADINDEX)`
(there are no operands), and a `*` width or precision emits `%!(BADWIDTH)`
or `%!(BADPREC)`.  The functions below model `fmt`'s `doPrintf` loop for
the zero-operand case: literal text up to a `%` is copied, then the
directive is parsed — flags, optional `[n]` argument index, width,
precision, a second index, then the verb — with `fmt`'s too-large number
cutoff (widths beyond `1e6` skip the rest of the format).
-/

/-- The flag characters of a directive (`#`, `0`, `+`, `-`, space). -/
def isFmtFlag (c : Char) : Bool := c = '#' || c = '0' || c = '+' || c = '-' || c = ' '

/-- Consume the directive's flag characters. -/
def skipFlags : List Char → List Char
  | [] => []
  | c :: t => if isFmtFlag c then skipFlags t else c :: t

/-- Models `fmt`'s `parsenum`: consume leading digits, returning whether a
number was present and the remainder; `none` models the too-large cutoff
(`num > 1e6`), which jumps to the end of the format string. -/
def parsenumF : List Char → Nat → Bool → Option (Bool × List Char)
  | [], _, isnum => some (isnum, [])
  | c :: t, num, isnum =>
    if c.isDigit then
      if 1000000 < num then none
      else parsenumF t (num * 10 + (c.toNat - 48)) true
    else some (isnum, c :: t)

/-- Index of the first `]`. -/
def bracketClose : List Char → Option Nat
  | [] => none
  | c :: t => if c = ']' then some 0 else (bracketClose t).map (fun j => j + 1)

/-- Models `fmt`'s `argNumber` with no operands: a `[` always clears
`goodArgNum` (every index is out of range), a well-formed `[n]` sets
`afterIndex`; consumption follows `parseArgNumber` (just the `[` when no
closing bracket is near, up to the bracket otherwise).  Returns the
remainder, the new `goodArgNum` given the current one `g`, and
`afterIndex`. -/
def argNumberF (g : Bool) : List Char → List Char × Bool × Bool
  | '[' :: rest =>
    if rest.length < 2 then (rest, false, false)
    else
      match bracketClose rest with
      | none => (rest, false, false)
      | some j =>
        let digits := rest.take j
        let ok :=
          match parsenumF digits 0 false with
          | some (isnum, []) => isnum
          | _ => false
        (rest.drop (j + 1), false, ok)
  | l => (l, g, false)

/-- `fmt`'s `noVerbString`. -/
def noVerbString : List Char := ['%', '!', '(', 'N', 'O', 'V', 'E', 'R', 'B', ')']

/-- `fmt`'s `badWidthString`. -/
def badWidthString : List Char :=
  ['%', '!', '(', 'B', 'A', 'D', 'W', 'I', 'D', 'T', 'H', ')']

/-- `fmt`'s `badPrecString`. -/
def badPrecString : List Char := ['%', '!', '(', 'B', 'A', 'D', 'P', 'R', 'E', 'C', ')']

/-- `fmt`'s missing-operand report for a verb. -/
def missingVerb (v : Char) : List Char :=
  ['%', '!', v, '(', 'M', 'I', 'S', 'S', 'I', 'N', 'G', ')']

/-- `fmt`'s bad-index report for a verb. -/
def badIndexVerb (v : Char) : List Char :=
  ['%', '!', v, '(', 'B', 'A', 'D', 'I', 'N', 'D', 'E', 'X', ')']

/-- The width part of a directive: a `*` consumes an (absent) operand and
reports `BADWIDTH`; otherwise digits are consumed, and a width right after
an argument index clears `goodArgNum`.  Returns
(written, rest, goodArgNum, afterIndex, jumped-to-end). -/
def fmtWidth (good after : Bool) : List Char → List Char × List Char × Bool × Bool × Bool
  | '*' :: t => (badWidthString, t, good, false, false)
  | l =>
    match parsenumF l 0 false with
    | none => ([], [], good, after, true)
    | some (isnum, rest) =>
      ([], rest, if after && isnum then false else good, after, false)

/-- The precision part of a directive: present only when a `.` is followed
by at least one more character; a `.` after an argument index clears
`goodArgNum`; then another optional index, and `*` reports `BADPREC`. -/
def fmtPrec (good after : Bool) : List Char → List Char × List Char × Bool × Bool × Bool
  | '.' :: c2 :: t2 =>
    let g0 := if after then false else good
    let s := argNumberF g0 (c2 :: t2)
    (match s.1 with
     | '*' :: t4 => (badPrecString, t4, s.2.1, false, false)
     | l4 =>
       match parsenumF l4 0 false with
       | none => ([], [], s.2.1, s.2.2, true)
       | some x => ([], x.2, s.2.1, s.2.2, false))
  | l => ([], l, good, after, false)

/-- The verb at the end of a directive: an exhausted format is `NOVERB`,
`%` writes a literal percent, and otherwise the missing-operand or
bad-index report is written. -/
def fmtVerb (good : Bool) : List Char → List Char × List Char
  | [] => (noVerbString, [])
  | v :: t =>
    if v = '%' then (['%'], t)
    else if good then (missingVerb v, t)
    else (badIndexVerb v, t)

/-- One `%` directive of `fmt`'s `doPrintf` with no operands, applied to
the text after the `%`: flags, index, width, precision, a second index when
no index was parsed late, then the verb.  Returns the written text and the
remaining format. -/
def fmtDirective (l : List Char) : List Char × List Char :=
  let s1 := argNumberF true (skipFlags l)
  let w := fmtWidth s1.2.1 s1.2.2 s1.1
  if w.2.2.2.2 then (w.1 ++ noVerbString, [])
  else
    let p := fmtPrec w.2.2.1 w.2.2.2.1 w.2.1
    if p.2.2.2.2 then (w.1 ++ p.1 ++ noVerbString, [])
    else
      let s5 := if p.2.2.2.1 then (p.2.1, p.2.2.1, p.2.2.2.1) else argNumberF p.2.2.1 p.2.1
      let vb := fmtVerb s5.2.1 s5.1
      (w.1 ++ p.1 ++ vb.1, vb.2)

/-- The `doPrintf` loop with no operands, on `fuel` : literal text is
copied and each `%` starts a directive.  `fuel` only bounds the number of
processed characters; every call supplies the format's length, which always
suffices because each step consumes at least one character, so the fuel
branch is unreachable. -/
def goFmtAux : Nat → List Char → List Char
  | _, [] => []
  | fuel + 1, c :: t =>
    if c = '%' then (fmtDirective t).1 ++ goFmtAux fuel (fmtDirective t).2
    else c :: goFmtAux fuel t
  | 0, l => l

/-- Models `fmt.Fprintf(w, s)` — `s` as the format string, no operands. -/
def goFmt (l : List Char) : List Char := goFmtAux l.length l

/-!
The rename regular expression.

`parseDiffPath` applies `fileRenameRegexp`, compiled from the pattern
`\x7b"?(.+)"? => "?(.+)"?\x7d` (an opening brace, an optional quote, a first
greedy group, an optional quote, the literal arrow surrounded by spaces, an
optional quote, a second greedy group, an optional quote, a closing brace),
to every path component containing the two characters `=` `>`.  Go's regexp
package uses leftmost-first (Perl-style) matching, so we model the pattern by
explicit backtracking: candidate start positions are scanned left to right,
and within a position greedy constructs try their longest alternative first.
`.` in Go matches every character except a newline, hence the `noNL` guards
on group candidates.
-/

/-- `.`-compatible characters for the greedy groups: Go's `.` does not match
a newline. -/
def noNL (l : List Char) : Bool := l.all (fun c => !(c = '\n'))

/-- The tail of the pattern after the second group: an optional quote then
the closing brace.  Greedy `"?` first tries to consume a quote and then
requires the brace; otherwise the brace must come directly. -/
def postG2 : List Char → Bool
  | '"' :: '}' :: _ => true
  | '}' :: _ => true
  | _ => false

/-- Second group, greedy: try the longest candidate first.  `n` is the
length of the candidate still to try; candidates are `l.take n` for `n`
descending, each at least one character. -/
def g2At (g1 : List Char) (l : List Char) : Nat → Option (List Char × List Char)
  | 0 => none
  | n + 1 =>
    if noNL (l.take (n + 1)) && postG2 (l.drop (n + 1)) then some (g1, l.take (n + 1))
    else g2At g1 l n

/-- Second group matched against `l`, longest candidate first. -/
def g2loop (g1 : List Char) (l : List Char) : Option (List Char × List Char) :=
  g2At g1 l l.length

/-- Greedy optional quote in front of a sub-matcher: if the input starts
with a quote, first try the alternative that consumes it, then fall back to
leaving it for the sub-matcher. -/
def quoteAlt (f : List Char → Option (List Char × List Char)) (l : List Char) :
    Option (List Char × List Char) :=
  if l.head? = some '"' then (f l.tail).orElse (fun _ => f l) else f l

/-- The middle of the pattern after the first group: an optional quote, the
literal ` => ` (space, equals, greater-than, space).  Returns the remaining
input in front of the second group.  Both alternatives of the optional quote
demand the literal arrow next, so the choice is forced by the first
character. -/
def sepCheck : List Char → Option (List Char)
  | '"' :: ' ' :: '=' :: '>' :: ' ' :: rest => some rest
  | ' ' :: '=' :: '>' :: ' ' :: rest => some rest
  | _ => none

/-- First group, greedy: candidates `l.take n` for `n` descending; each
candidate must be followed by the arrow separator, and the rest of the
pattern must then match. -/
def g1At (l : List Char) : Nat → Option (List Char × List Char)
  | 0 => none
  | n + 1 =>
    (if noNL (l.take (n + 1)) then
      match sepCheck (l.drop (n + 1)) with
      | some rest => quoteAlt (g2loop (l.take (n + 1))) rest
      | none => none
    else none).orElse (fun _ => g1At l n)

/-- First group matched against `l`, longest candidate first. -/
def g1loop (l : List Char) : Option (List Char × List Char) :=
  g1At l l.length

/-- Try to match the whole rename pattern at the start of `l`. -/
def matchAt : List Char → Option (List Char × List Char)
  | '{' :: t => quoteAlt g1loop t
  | _ => none

/-- Models `fileRenameRegexp.FindStringSubmatch`: scan candidate start
positions left to right, returning the two capture groups of the first
position where the pattern matches. -/
def findRename : List Char → Option (List Char × List Char)
  | [] => none
  | c :: t => (matchAt (c :: t)).orElse (fun _ => findRename t)

/-- Per-component step of `parseDiffPath`: a component containing `=>` must
match the rename regexp and contributes its two groups; any other component
contributes itself to both the source and the destination.  Every written
piece goes through `fmt.Fprintf` with the piece as the format string
(`goFmt`), so `%`-containing pieces are mangled exactly as the program
mangles them. -/
def partSrcDst (part : List Char) : Option (List Char × List Char) :=
  if containsSub ['=', '>'] part then
    (findRename part).map (fun g => (goFmt g.1, goFmt g.2))
  else some (goFmt part, goFmt part)

/-- Models `parseDiffPath` (older `internal/git`, `src/unnamed/part_002`):
split the numstat path on the OS separator `/`, rewrite each component
(through `goFmt`, see `partSrcDst`), and join the pieces back; the
separator is also written through `fmt.Fprintf` but is `/`, which contains
no directive and is copied verbatim.  The destination is cleared to empty
when it coincides with the source; `none` models the error return. -/
def parseDiffPath (path : List Char) : Option (List Char × List Char) :=
  (List.mapM partSrcDst (splitOnChar '/' path)).map
    (fun prs =>
      let out := intercalateSep '/' (prs.map Prod.fst)
      let d := intercalateSep '/' (prs.map Prod.snd)
      (out, if d = out then [] else d))

/-- A file that was changed in a Commit (older `internal/git`). -/
structure FileDiff where
  path : List Char
  linesAdded : Int
  linesRemoved : Int
  moveDest : List Char
deriving DecidableEq, Repr

/-- Models `parseFileDiff`: three tab-separated fields; a `-` count is left
at the zero value; the path field goes through `parseDiffPath`. -/
def parseFileDiff (line : List Char) : Option FileDiff :=
  match splitOnChar '\t' line with
  | [a, r, p] =>
    (if a = ['-'] then some 0 else atoi a).bind (fun la =>
      (if r = ['-'] then some 0 else atoi r).bind (fun lr =>
        (parseDiffPath p).map (fun sd => ⟨sd.1, la, lr, sd.2⟩)))
  | _ => none

/-- A commit record (older `internal/git`).  `date` holds the unix-seconds
value passed to `time.Unix`; the Go zero value of `time.Time` is modelled as
`0`. -/
structure Commit where
  hash : List Char
  shortHash : List Char
  authorName : List Char
  authorEmail : List Char
  date : Int
  subject : List Char
  fileDiffs : List FileDiff
deriving DecidableEq, Repr

/-- The zero-valued commit the parser starts each block from. -/
def Commit.empty : Commit := ⟨[], [], [], [], 0, [], []⟩

/-- One element of the sequence yielded by `parseCommits`: a parsed commit,
or a partial commit paired with an error. -/
inductive ParseEvent where
  | ok (c : Commit)
  | err (c : Commit)
deriving DecidableEq, Repr

/-- Whether an event is a successfully parsed commit. -/
def ParseEvent.isOk : ParseEvent → Bool
  | .ok _ => true
  | .err _ => false

/-- The loop body of `parseCommits` (older `internal/git`): `c` is the
commit under construction and `n` is `linesThisCommit`.  A blank line yields
the current commit and resets the state; header positions 0–3 and 5 accept
any line; position 4 must parse as an integer date and positions ≥ 6 must
parse as numstat file diffs, an error yielding the partial commit and
terminating the sequence.  The input is the list of lines (line-read errors
of the underlying subprocess are outside the claims and not modelled); the
output models the fully consumed iterator. -/
def parseLoop (c : Commit) (n : Nat) : List (List Char) → List ParseEvent
  | [] => if n > 0 then [.ok c] else []
  | line :: rest =>
    if line = [] then .ok c :: parseLoop Commit.empty 0 rest
    else
      match n with
      | 0 => parseLoop { c with hash := line } 1 rest
      | 1 => parseLoop { c with shortHash := line } 2 rest
      | 2 => parseLoop { c with authorName := line } 3 rest
      | 3 => parseLoop { c with authorEmail := line } 4 rest
      | 4 =>
        match atoi line with
        | none => [.err c]
        | some i => parseLoop { c with date := i } 5 rest
      | 5 => parseLoop { c with subject := line } 6 rest
      | m + 6 =>
        match parseFileDiff line with
        | none => [.err c]
        | some d => parseLoop { c with fileDiffs := c.fileDiffs ++ [d] } (m + 7) rest

/-- Models `parseCommits` on a fully consumed line sequence. -/
def parseCommitsList (lines : List (List Char)) : List ParseEvent :=
  parseLoop Commit.empty 0 lines

/-- The source/destination pair reconstructed by `parseDiffPath`, with the
"no rename occurred" convention decoded: the code returns an empty
destination exactly when the reconstructed destination coincides with the
reconstructed source, so the reconstructed destination is the source in that
case. -/
def diffPathSrcDst (path : List Char) : Option (List Char × List Char) :=
  (parseDiffPath path).map (fun sd => (sd.1, if sd.2 = [] then sd.1 else sd.2))

/-- Whether a line position is rejected by the `parseCommits` loop: position
4 must be an integer date and positions from 6 on must be numstat lines.
Blank lines are never rejected (they terminate a block). -/
def lineBad (n : Nat) (line : List Char) : Bool :=
  if line = [] then false
  else if n = 4 then (atoi line).isNone
  else if 6 ≤ n then (parseFileDiff line).isNone
  else false

/-- The next `linesThisCommit` value after consuming a line. -/
def nextPos (n : Nat) (line : List Char) : Nat :=
  if line = [] then 0 else n + 1

/-- The prefix of the input strictly before the first malformed line, when a
malformed line exists; `n` is the current `linesThisCommit` value. -/
def badSplitAux (n : Nat) : List (List Char) → Option (List (List Char))
  | [] => none
  | line :: rest =>
    if lineBad n line then some []
    else (badSplitAux (nextPos n line) rest).map (fun pre => line :: pre)

/-- The prefix of the input strictly before the first malformed line, when
one exists. -/
def badSplit (lines : List (List Char)) : Option (List (List Char)) :=
  badSplitAux 0 lines

/-- The number of blank lines in a line list (every blank line yields one
commit). -/
def countBlank (lines : List (List Char)) : Nat :=
  lines.countP (fun l => l.isEmpty)

end git

namespace spec

/-- Modelled from the spec: the `Commit` record of §3 of the specification,
as produced by the newer `ParseCommits` and consumed by the tally engine;
both bodies are missing from `src/` (only their declarations and callers
appear).  `date` is the unix-seconds author date. -/
structure FileDiff where
  path : String
  linesAdded : Int
  linesRemoved : Int
  moveDest : String
deriving DecidableEq, Repr

/-- Modelled from the spec: the commit record of §3 (the newer `git.Commit`
declared in `src/unnamed/part_002` extended with the spec's `subject` and
the diffs' `move_dest`, which the missing parser and tally engine use). -/
structure Commit where
  hash : String
  shortHash : String
  authorName : String
  authorEmail : String
  date : Int
  subject : String
  isMerge : Bool
  fileDiffs : List FileDiff
deriving DecidableEq, Repr

/-- The zero-valued commit each parsed block starts from. -/
def Commit.empty : Commit := ⟨"", "", "", "", 0, "", false, []⟩

/-- One element of the sequence yielded by the (modelled) `ParseCommits`. -/
inductive ParseEvent where
  | ok (c : Commit)
  | err (c : Commit)
deriving DecidableEq, Repr

/-- Modelled from the spec: the numstat line grammar of §4.2, identical to
the embedded older `parseFileDiff` (three tab-separated fields, `-` counts
treated as zero, rename-encoded path split into source and destination). -/
def parseNumstat (line : String) : Option FileDiff :=
  (git.parseFileDiff line.toList).map
    (fun d => ⟨String.mk d.path, d.linesAdded, d.linesRemoved, String.mk d.moveDest⟩)

/-- Modelled from the spec: the loop of the newer `ParseCommits`, whose body
is missing from `src/` (only its caller `CommitsWithOpts` appears).  Per
§4.2 the header layout is: full hash, short hash, author name, author
email, integer author date, space-separated parent hash list, subject; then
numstat lines; a blank line separates commits.  `is_merge` is set iff the
parent list has two or more entries.  Errors yield the partial commit and
terminate the sequence. -/
def ParseCommitsLoop (c : Commit) (n : Nat) : List String → List ParseEvent
  | [] => if n > 0 then [.ok c] else []
  | line :: rest =>
    if line = "" then .ok c :: ParseCommitsLoop Commit.empty 0 rest
    else
      match n with
      | 0 => ParseCommitsLoop { c with hash := line } 1 rest
      | 1 => ParseCommitsLoop { c with shortHash := line } 2 rest
      | 2 => ParseCommitsLoop { c with authorName := line } 3 rest
      | 3 => ParseCommitsLoop { c with authorEmail := line } 4 rest
      | 4 =>
        match git.atoi line.toList with
        | none => [.err c]
        | some i => ParseCommitsLoop { c with date := i } 5 rest
      | 5 => ParseCommitsLoop { c with isMerge := decide (2 ≤ (line.splitOn " ").length) } 6 rest
      | 6 => ParseCommitsLoop { c with subject := line } 7 rest
      | m + 7 =>
        match parseNumstat line with
        | none => [.err c]
        | some d => ParseCommitsLoop { c with fileDiffs := c.fileDiffs ++ [d] } (m + 8) rest

/-- Modelled from the spec: the newer `ParseCommits` on a fully consumed
line sequence. -/
def ParseCommits (lines : List String) : List ParseEvent :=
  ParseCommitsLoop Commit.empty 0 lines

end spec

namespace tally

/-- Modelled from the spec: the sentinel pathname (§4.4/§4.7) that carries
"this commit had no diffs"; its concrete value does not appear in `src/`. -/
def NoDiffPathname : String := "<no diff>"

/-- The tally modes (`tally.TallyMode`; the tally package body is missing
from `src/`, the mode names are those referenced by `tree.go` and
`main.go`). -/
inductive TallyMode where
  | CommitMode
  | FilesMode
  | LinesMode
  | LastModifiedMode
deriving DecidableEq, Repr

/-- Modelled from the spec: `FinalTally` (§3), the attributed author's
identity plus the aggregated counts, as read by `tree.go`. -/
structure FinalTally where
  authorName : String
  authorEmail : String
  commits : Nat
  fileCount : Nat
  linesAdded : Nat
  linesRemoved : Nat
  lastCommitTime : Int
deriving DecidableEq, Repr

/-- Modelled from the spec: `TreeNode` (§3) as read by `tree.go`: a tally,
a mapping from single path components to children (embedded as an
association list with distinct keys), and the working-tree flag. -/
inductive TreeNode : Type where
  | node (tally : FinalTally) (children : List (String × TreeNode)) (inWorkTree : Bool)

/-- The node's attributed tally. -/
def TreeNode.tally : TreeNode → FinalTally
  | .node t _ _ => t

/-- The node's children. -/
def TreeNode.children : TreeNode → List (String × TreeNode)
  | .node _ c _ => c

/-- Whether the subtree contains a working-tree path. -/
def TreeNode.inWorkTree : TreeNode → Bool
  | .node _ _ w => w

/-!
The tally engine (spec-modelled).

`tally.TallyCommitsTree` and `concurrent.TallyCommitsTree` are missing from
`src/` (only their callers in `tree.go` appear), so the engine is modelled
from §4.4/§4.5 of the spec.  A tally is represented extensionally: for every
node (a list of path components, `[]` being the repository root) and every
author key it gives the accumulated counts, together with the working-tree
flag per node; sibling ordering — which the claim quotients out — never
enters this representation.
-/

/-- Modelled from the spec: one `PathTally` bucket (§3): commit count, the
set of touched paths, added and removed line sums, and the last commit time
(`none` until a commit reaches the bucket).  §3 requires `file_count` to
count "distinct paths that this author ever touched under this node" and
§4.4 bumps it only "when this path is visited for the first time", so the
accumulator must carry the path set itself — `file_count` is its size (see
`Counts.fileCount`) — and merging buckets unions the sets, which performs
exactly that cross-commit (and cross-worker) first-visit dedupe.  (Reading
§4.5's "sums for … file_count" as summing the displayed sizes would
double-count paths touched in several commits and contradict §3's
invariant.) -/
structure Counts where
  commits : Nat
  files : Finset String
  linesAdded : Int
  linesRemoved : Int
  lastCommitTime : Option Int
deriving DecidableEq

/-- The displayed `file_count` of a bucket: the number of distinct touched
paths. -/
def Counts.fileCount (c : Counts) : Nat := c.files.card

/-- The empty bucket. -/
def Counts.zero : Counts := ⟨0, ∅, 0, 0, none⟩

/-- Merging last-commit times: the later of the two, with `none` as
identity. -/
def mergeTime : Option Int → Option Int → Option Int
  | none, b => b
  | some a, none => some a
  | some a, some b => some (max a b)

/-- Modelled from the spec (§4.5 with §3's `file_count` invariant): merging
buckets is additive on commits and line sums, unions the touched-path sets
(so `file_count` stays the number of distinct paths ever touched), and
takes the maximum of the last commit times. -/
def Counts.merge (a b : Counts) : Counts :=
  ⟨a.commits + b.commits, a.files ∪ b.files, a.linesAdded + b.linesAdded,
    a.linesRemoved + b.linesRemoved, mergeTime a.lastCommitTime b.lastCommitTime⟩

/-- Modelled from the spec: the whole tally, extensionally: per-node
buckets, per-node-per-author buckets, and the per-node working-tree flag. -/
@[ext]
structure Tally where
  nodes : List String → Counts
  authorCounts : List String → String → Counts
  inWorkTree : List String → Bool

/-- The empty tally. -/
def Tally.zero : Tally :=
  ⟨fun _ => Counts.zero, fun _ _ => Counts.zero, fun _ => false⟩

/-- Modelled from the spec (§4.5): merging tallies is bucket-wise merge and
a logical OR of the working-tree flags. -/
def Tally.merge (a b : Tally) : Tally :=
  ⟨fun q => (a.nodes q).merge (b.nodes q),
    fun q k => (a.authorCounts q k).merge (b.authorCounts q k),
    fun q => a.inWorkTree q || b.inWorkTree q⟩

/-- The path a diff's line counts are attributed to: the rename destination
when the diff is a rename, else the diff's path (§4.4, rename handling). -/
def effPath (d : spec.FileDiff) : String :=
  if d.moveDest = "" then d.path else d.moveDest

/-- The diffs of a commit lying under a node. -/
def diffsUnder (c : spec.Commit) (q : List String) : List spec.FileDiff :=
  c.fileDiffs.filter (fun d => List.isPrefixOf q ((effPath d).splitOn "/"))

/-- The bucket a single commit contributes for a list of its diffs: one
commit (per-commit dedupe: a node is bumped once per commit), the set of
touched paths (whose union across commits realises §4.4's "bump file_count
when this path is visited for the first time"), the line sums, and the
commit's date. -/
def countsFor (c : spec.Commit) (ds : List spec.FileDiff) : Counts :=
  ⟨1, (ds.map effPath).toFinset,
    (ds.map (fun d => d.linesAdded)).sum,
    (ds.map (fun d => d.linesRemoved)).sum,
    some c.date⟩

/-- Modelled from the spec (§4.4): the tally contribution of one commit.
A merge commit contributes nothing when merges are not counted; the root
(`[]`) is bumped for the commit; every nonempty ancestor of a touched path
is bumped once with the aggregates of the diffs under it; a commit with no
diffs is attributed to the `NoDiffPathname` sentinel when merges are
counted; author buckets accumulate the same quantities under the commit's
key; a node is in the working tree when a touched path under it is in the
working-tree set. -/
def commitTally (key : spec.Commit → String) (wtree : List String) (countMerges : Bool)
    (c : spec.Commit) : Tally :=
  if c.isMerge && !countMerges then Tally.zero
  else
    let bucket : List String → Counts := fun q =>
      if q = [] then countsFor c c.fileDiffs
      else if q = [NoDiffPathname] && c.fileDiffs.isEmpty && countMerges then
        ⟨1, ∅, 0, 0, some c.date⟩
      else if (diffsUnder c q).isEmpty then Counts.zero
      else countsFor c (diffsUnder c q)
    ⟨bucket,
      fun q k => if k = key c then bucket q else Counts.zero,
      fun q => (diffsUnder c q).any (fun d => wtree.contains (effPath d))⟩

/-- Modelled from the spec (§4.4): the sequential tally engine processes
the commit sequence in order, merging each commit's contribution into the
accumulated state.  This fold is the stateful engine of §4.4: adding line
and commit counts per commit, advancing the last-commit time, and — because
the accumulator carries the touched-path set and the merge unions it —
bumping `file_count` only on an author's first visit to a path, also across
commits. -/
def sequentialTally (key : spec.Commit → String) (wtree : List String)
    (countMerges : Bool) (cs : List spec.Commit) : Tally :=
  cs.foldl (fun t c => t.merge (commitTally key wtree countMerges c)) Tally.zero

/-- Modelled from the spec (§4.5): the parallel tally engine gives each
worker one chunk of the commit set, runs the sequential engine on it, and
merges the partial tallies. -/
def parallelTally (key : spec.Commit → String) (wtree : List String)
    (countMerges : Bool) (chunks : List (List spec.Commit)) : Tally :=
  ((chunks.map (sequentialTally key wtree countMerges)).foldl Tally.merge Tally.zero)

end tally

namespace gitB

/-- A file that was changed in a Commit (newer `internal/git`,
`src/unnamed/part_002`). -/
structure FileDiff where
  path : String
  linesAdded : Int
  linesRemoved : Int
deriving DecidableEq, Repr

/-- A commit record (newer `internal/git`). -/
structure Commit where
  hash : String
  shortHash : String
  isMerge : Bool
  authorName : String
  authorEmail : String
  date : Int
  fileDiffs : List FileDiff
deriving DecidableEq, Repr

/-- Models `LimitDiffsByPath` (newer `internal/git`): with no path prefixes
the sequence is returned unchanged, otherwise every commit is passed through
with its diff list narrowed to the diffs whose path starts with one of the
prefixes (the Go inner loop appends on the first matching prefix and
breaks).  The lazy commit sequence is modelled as a list; the upstream
error pass-through is outside this claim. -/
def LimitDiffsByPath (commits : List Commit) (paths : List String) : List Commit :=
  if paths.isEmpty then commits
  else
    commits.map (fun c =>
      { c with fileDiffs := c.fileDiffs.filter (fun d => paths.any (fun p => d.path.startsWith p)) })

end gitB

namespace backends

/-- Modelled from the spec (§4.6): the state of an open gob cache backend —
the persisted record stream plus the in-memory buffer of commits added since
the last open.  The backend implementation is missing from `src/`; only its
test (`src/unnamed/part_001`) appears.  Per the spec, `add` appends to the
buffer and `close` merges the buffer into the persisted store atomically;
per the test, a `Get` issued after an `Add` in the same session already sees
the added commits. -/
structure GobState where
  store : List spec.Commit
  buffer : List spec.Commit
deriving DecidableEq, Repr

/-- A freshly created cache. -/
def GobState.empty : GobState := ⟨[], []⟩

/-- Modelled from the spec: `add` appends commits to the in-memory buffer. -/
def GobState.add (s : GobState) (cs : List spec.Commit) : GobState :=
  { s with buffer := s.buffer ++ cs }

/-- Modelled from the spec: `close` merges the buffer into the persisted
store and a subsequent `open` reloads it with an empty buffer. -/
def GobState.closeOpen (s : GobState) : GobState :=
  ⟨s.store ++ s.buffer, []⟩

/-- Modelled from the spec: `get` yields the cached commits whose full hash
is among `revs`, in backing-store iteration order; uncached revisions are
absent from the output. -/
def GobState.get (s : GobState) (revs : List String) : List spec.Commit :=
  (s.store ++ s.buffer).filter (fun c => revs.contains c.hash)

/-- Optionally close and re-open the cache (one point of the add/close/open
interleaving). -/
def GobState.step (s : GobState) (b : Bool) : GobState :=
  if b then s.closeOpen else s

end backends

namespace treecmd

/-!
The `tree` command's output post-processing (`tree.go`, package `main`).
The terminal helpers it calls (`ansi` color constants, `format.Number`,
`format.RelativeTime`) are not under `src/` and are declared thin rendering
shells by the spec; they are modelled as the escape strings and plain
decimal rendering.  None of the tree-structure claims depend on the metric
text.
-/

/-- Modelled from the spec: `ansi.Green`. -/
def ansiGreen : String := "\x1b[32m"

/-- Modelled from the spec: `ansi.Red`. -/
def ansiRed : String := "\x1b[31m"

/-- Modelled from the spec: `ansi.DefaultColor`. -/
def ansiDefaultColor : String := "\x1b[39m"

/-- Modelled from the spec: `format.Number`, plain decimal rendering. -/
def fmtNumber (n : Nat) : String := toString n

/-- Modelled from the spec: `format.RelativeTime`, rendered from the raw
timestamp. -/
def fmtRelativeTime (t : Int) : String := toString t

/-- `printTreeOpts` of `tree.go`. -/
structure printTreeOpts where
  mode : tally.TallyMode
  maxDepth : Nat
  showHidden : Bool
deriving DecidableEq, Repr

/-- `treeOutputLine` of `tree.go`. -/
structure treeOutputLine where
  indent : String
  path : String
  metric : String
  tally : tally.FinalTally
  showLine : Bool
  showTally : Bool
  dimTally : Bool
  dimPath : Bool
deriving DecidableEq, Repr

/-- Models `fmtTallyMetric`. -/
def fmtTallyMetric (t : tally.FinalTally) (opts : printTreeOpts) : String :=
  match opts.mode with
  | .CommitMode => "(" ++ fmtNumber t.commits ++ ")"
  | .FilesMode => "(" ++ fmtNumber t.fileCount ++ ")"
  | .LinesMode =>
    "(" ++ ansiGreen ++ fmtNumber t.linesAdded ++ ansiDefaultColor ++ " / " ++
      ansiRed ++ fmtNumber t.linesRemoved ++ ansiDefaultColor ++ ")"
  | .LastModifiedMode => "(" ++ fmtRelativeTime t.lastCommitTime ++ ")"

/-- The indent string built from the `isFinalChild` flags: glyphs for the
last level, continuation bars for the outer levels. -/
def indentOf : List Bool → String
  | [] => ""
  | [isFinal] => if isFinal then "└── " else "├── "
  | isFinal :: rest => (if isFinal then "    " else "│   ") ++ indentOf rest

/-- Models `filepath.Join(path, k)` for the arguments `toLines` produces:
`k` is a single clean path component, so the only cleaning performed is
dropping a leading `"."` (or an empty left operand). -/
def joinPath (p k : String) : String :=
  if p = "." then k else if p = "" then k else p ++ "/" ++ k

/-- Lookup in the children association list (models indexing the Go map). -/
def lookupChild : List (String × tally.TreeNode) → String → Option tally.TreeNode
  | [], _ => none
  | (k, v) :: rest, key => if k = key then some v else lookupChild rest key

/-- Whether the child under a key is itself a directory (has children). -/
def hasChildrenOf (children : List (String × tally.TreeNode)) (k : String) : Bool :=
  match lookupChild children k with
  | some n => !n.children.isEmpty
  | none => false

/-- The child-ordering comparator of `toLines` as a `≤` test: directories
first, then lexicographic.  On distinct keys the comparator never returns
0, so it is a total order and any correct sort (here insertion sort, below)
produces the order `slices.SortedFunc` does. -/
def keyLE (children : List (String × tally.TreeNode)) (a b : String) : Bool :=
  let aH := hasChildrenOf children a
  let bH := hasChildrenOf children b
  if aH = bH then decide (a ≤ b) else aH

/-- Insert into a `le`-sorted list. -/
def insertKey (le : String → String → Bool) (a : String) : List String → List String
  | [] => [a]
  | b :: r => if le a b then a :: b :: r else b :: insertKey le a r

/-- Insertion sort by `le`; models `slices.SortedFunc` over the child
keys. -/
def sortKeys (le : String → String → Bool) : List String → List String
  | [] => []
  | a :: r => insertKey le a (sortKeys le r)

/-- The index of the last child that will be shown (`finalChildIndex` loop
of `toLines`); 0 when no child is shown. -/
def finalChildIndexAux (children : List (String × tally.TreeNode)) (showHidden : Bool) :
    List String → Nat → Nat → Nat
  | [], _, acc => acc
  | p :: rest, i, acc =>
    let keep :=
      match lookupChild children p with
      | some c => c.inWorkTree || showHidden
      | none => false
    finalChildIndexAux children showHidden rest (i + 1) (if keep then i else acc)

mutual

/-- Models `toLines` of `tree.go`: recursively turn tree nodes into output
lines.  The sentinel path and nodes beyond the depth limit produce nothing;
a node with exactly one child is collapsed into it while below the depth
limit (path elision); otherwise the node emits its own line and recurses
into its children in sorted order. -/
def toLines (node : tally.TreeNode) (path : String) (depth : Nat) (lastAuthor : String)
    (isFinalChild : List Bool) (opts : printTreeOpts) (lines : List treeOutputLine) :
    List treeOutputLine :=
  if path = tally.NoDiffPathname then lines
  else if _hd : depth > opts.maxDepth then lines
  else
    match node.children with
    | [(k, v)] =>
      if hlt : depth < opts.maxDepth then
        toLines v (joinPath path k) (depth + 1) lastAuthor isFinalChild opts lines
      else
        let line : treeOutputLine :=
          { indent := indentOf isFinalChild,
            path := if node.children.isEmpty then path else path ++ "/",
            metric := fmtTallyMetric node.tally opts,
            tally := node.tally,
            showLine := node.inWorkTree || opts.showHidden,
            showTally := opts.showHidden || !(node.tally.authorEmail == lastAuthor) ||
              !node.children.isEmpty,
            dimTally := !node.children.isEmpty,
            dimPath := !node.inWorkTree }
        let childPaths := sortKeys (keyLE node.children) (node.children.map Prod.fst)
        let fin := finalChildIndexAux node.children opts.showHidden childPaths 0 0
        toLinesChildren node.children childPaths 0 fin (depth + 1) node.tally.authorEmail
          isFinalChild opts (lines ++ [line])
    | _ =>
      let line : treeOutputLine :=
        { indent := indentOf isFinalChild,
          path := if node.children.isEmpty then path else path ++ "/",
          metric := fmtTallyMetric node.tally opts,
          tally := node.tally,
          showLine := node.inWorkTree || opts.showHidden,
          showTally := opts.showHidden || !(node.tally.authorEmail == lastAuthor) ||
            !node.children.isEmpty,
          dimTally := !node.children.isEmpty,
          dimPath := !node.inWorkTree }
      let childPaths := sortKeys (keyLE node.children) (node.children.map Prod.fst)
      let fin := finalChildIndexAux node.children opts.showHidden childPaths 0 0
      toLinesChildren node.children childPaths 0 fin (depth + 1) node.tally.authorEmail
        isFinalChild opts (lines ++ [line])
termination_by (opts.maxDepth + 2 - depth, 0)

/-- The child loop at the bottom of `toLines`: each sorted key is looked up
and recursed into with the parent's author as `lastAuthor` and the
final-child flag appended.  `childDepth` is the parent's depth plus one. -/
def toLinesChildren (children : List (String × tally.TreeNode)) (keys : List String)
    (i fin : Nat) (childDepth : Nat) (parentEmail : String) (isFinalChild : List Bool)
    (opts : printTreeOpts) (lines : List treeOutputLine) : List treeOutputLine :=
  match keys with
  | [] => lines
  | p :: rest =>
    let lines2 :=
      match lookupChild children p with
      | some child =>
        toLines child p childDepth parentEmail (isFinalChild ++ [decide (i = fin)]) opts lines
      | none => lines
    toLinesChildren children rest (i + 1) fin childDepth parentEmail isFinalChild opts lines2
termination_by (opts.maxDepth + 2 - childDepth, keys.length + 1)

end

end treecmd

/-!
# Theorems

Helper lemmas first, then one theorem per claim (with counterexamples,
amended statements and witnesses where required).
-/

namespace git

theorem beginsWith_self_append (a y : List Char) : beginsWith a (a ++ y) = true := by
  induction a with
  | nil => rfl
  | cons c t ih => simp [beginsWith, ih]

theorem beginsWith_extend {n x : List Char} (y : List Char) (h : beginsWith n x = true) :
    beginsWith n (x ++ y) = true := by
  induction n generalizing x with
  | nil => rfl
  | cons a as ih =>
    cases x with
    | nil => simp [beginsWith] at h
    | cons b bs =>
      simp [beginsWith] at h ⊢
      exact ⟨h.1, ih h.2⟩

theorem containsSub_of_beginsWith {n l : List Char} (h : beginsWith n l = true) :
    containsSub n l = true := by
  cases l with
  | nil =>
    cases n with
    | nil => rfl
    | cons a as => simp [beginsWith] at h
  | cons c t => simp [containsSub, h]

theorem containsSub_cons_of {n : List Char} (c : Char) {t : List Char}
    (h : containsSub n t = true) : containsSub n (c :: t) = true := by
  simp [containsSub, h]

theorem splitOnChar_ne_nil (sep : Char) (l : List Char) : splitOnChar sep l ≠ [] := by
  cases l with
  | nil => simp [splitOnChar]
  | cons c t =>
    simp only [splitOnChar]
    split
    · simp
    · split <;> simp

theorem splitOnChar_head_prefix (sep : Char) :
    ∀ (l h : List Char) (r : List (List Char)),
      splitOnChar sep l = h :: r → ∃ rest, l = h ++ rest := by
  intro l
  induction l with
  | nil =>
    intro h r heq
    simp [splitOnChar] at heq
    exact ⟨[], by simp [heq.1]⟩
  | cons c t ih =>
    intro h r heq
    by_cases hc : c = sep
    · simp [splitOnChar, hc] at heq
      exact ⟨c :: t, by simp [heq.1]⟩
    · cases hsplit : splitOnChar sep t with
      | nil => exact absurd hsplit (splitOnChar_ne_nil sep t)
      | cons hh rr =>
        rw [show splitOnChar sep (c :: t) = (c :: hh) :: rr by
          simp [splitOnChar, hc, hsplit]] at heq
        obtain ⟨rest, ht⟩ := ih hh rr hsplit
        obtain ⟨hh1, -⟩ := List.cons.injEq .. ▸ heq
        refine ⟨rest, ?_⟩
        rw [← hh1, ht]
        simp

theorem containsSub_of_part {sep : Char} {n : List Char} :
    ∀ {l part : List Char}, part ∈ splitOnChar sep l → containsSub n part = true →
      containsSub n l = true := by
  intro l
  induction l with
  | nil =>
    intro part hp h
    simp [splitOnChar] at hp
    subst hp
    exact h
  | cons c t ih =>
    intro part hp h
    by_cases hc : c = sep
    · rw [show splitOnChar sep (c :: t) = [] :: splitOnChar sep t by
        simp [splitOnChar, hc]] at hp
      rcases List.mem_cons.mp hp with hp | hp
      · subst hp
        simp [containsSub] at h
        subst h
        rfl
      · exact containsSub_cons_of c (ih hp h)
    · cases hsplit : splitOnChar sep t with
      | nil => exact absurd hsplit (splitOnChar_ne_nil sep t)
      | cons hh rr =>
        rw [show splitOnChar sep (c :: t) = (c :: hh) :: rr by
          simp [splitOnChar, hc, hsplit]] at hp
        rcases List.mem_cons.mp hp with hp | hp
        · subst hp
          obtain ⟨rest, ht⟩ := splitOnChar_head_prefix sep t hh rr hsplit
          rw [show containsSub n (c :: hh) =
            (beginsWith n (c :: hh) || containsSub n hh) from rfl] at h
          rcases Bool.or_eq_true_iff.mp h with h | h
          · have hx := beginsWith_extend rest h
            rw [ht]
            exact containsSub_of_beginsWith (by simpa using hx)
          · refine containsSub_cons_of c (ih ?_ h)
            rw [hsplit]
            exact List.mem_cons_self _ _
        · refine containsSub_cons_of c (ih ?_ h)
          rw [hsplit]
          exact List.mem_cons_of_mem _ hp

theorem goFmtAux_no_pct :
    ∀ (fuel : Nat) (l : List Char), l.length ≤ fuel → '%' ∉ l → goFmtAux fuel l = l := by
  intro fuel
  induction fuel with
  | zero =>
    intro l hlen _
    cases l with
    | nil => rfl
    | cons c t => simp at hlen
  | succ fuel ih =>
    intro l hlen hp
    cases l with
    | nil => rfl
    | cons c t =>
      have hc : ¬(c = '%') := fun he => hp (he ▸ List.mem_cons_self _ _)
      rw [show goFmtAux (fuel + 1) (c :: t) =
        if c = '%' then (fmtDirective t).1 ++ goFmtAux fuel (fmtDirective t).2
        else c :: goFmtAux fuel t from rfl, if_neg hc,
        ih t (by simp only [List.length_cons] at hlen; omega)
          (fun hm => hp (List.mem_cons_of_mem _ hm))]

theorem goFmt_no_pct {l : List Char} (h : '%' ∉ l) : goFmt l = l :=
  goFmtAux_no_pct l.length l (Nat.le_refl _) h

theorem map_goFmt_self {parts : List (List Char)} (h : ∀ p ∈ parts, '%' ∉ p) :
    parts.map goFmt = parts := by
  induction parts with
  | nil => rfl
  | cons p rest ih =>
    rw [List.map_cons, goFmt_no_pct (h p (List.mem_cons_self _ _)),
      ih (fun q hq => h q (List.mem_cons_of_mem _ hq))]

theorem partSrcDst_plain {part : List Char} (h : containsSub ['=', '>'] part = false) :
    partSrcDst part = some (goFmt part, goFmt part) := by
  simp [partSrcDst, h]

theorem mapM_partSrcDst_plain :
    ∀ {parts : List (List Char)}, (∀ part ∈ parts, containsSub ['=', '>'] part = false) →
      List.mapM partSrcDst parts = some (parts.map (fun p => (goFmt p, goFmt p))) := by
  intro parts
  induction parts with
  | nil => intro _; rfl
  | cons p rest ih =>
    intro h
    rw [List.mapM_cons, partSrcDst_plain (h p (List.mem_cons_self _ _)),
      ih (fun part hp => h part (List.mem_cons_of_mem _ hp))]
    rfl

theorem intercalate_splitOnChar (sep : Char) :
    ∀ l : List Char, intercalateSep sep (splitOnChar sep l) = l := by
  intro l
  induction l with
  | nil => rfl
  | cons c t ih =>
    by_cases hc : c = sep
    · rw [show splitOnChar sep (c :: t) = [] :: splitOnChar sep t by
        simp [splitOnChar, hc]]
      cases hsplit : splitOnChar sep t with
      | nil => exact absurd hsplit (splitOnChar_ne_nil sep t)
      | cons hh rr =>
        rw [show intercalateSep sep ([] :: hh :: rr) =
          sep :: intercalateSep sep (hh :: rr) from rfl, ← hsplit, ih, hc]
    · cases hsplit : splitOnChar sep t with
      | nil => exact absurd hsplit (splitOnChar_ne_nil sep t)
      | cons hh rr =>
        rw [show splitOnChar sep (c :: t) = (c :: hh) :: rr by
          simp [splitOnChar, hc, hsplit]]
        cases rr with
        | nil =>
          rw [show intercalateSep sep [c :: hh] = c :: hh from rfl]
          rw [hsplit] at ih
          rw [show intercalateSep sep [hh] = hh from rfl] at ih
          rw [ih]
        | cons r1 r2 =>
          rw [show intercalateSep sep ((c :: hh) :: r1 :: r2) =
            (c :: hh) ++ sep :: intercalateSep sep (r1 :: r2) from rfl]
          rw [hsplit] at ih
          rw [show intercalateSep sep (hh :: r1 :: r2) =
            hh ++ sep :: intercalateSep sep (r1 :: r2) from rfl] at ih
          simp [ih]

theorem parseDiffPath_plain {p : List Char} (hno : containsSub ['=', '>'] p = false) :
    parseDiffPath p =
      some (intercalateSep '/' ((splitOnChar '/' p).map goFmt), []) := by
  have hparts : ∀ part ∈ splitOnChar '/' p, containsSub ['=', '>'] part = false := by
    intro part hp
    by_contra hcon
    rw [containsSub_of_part hp (Bool.not_eq_false _ ▸ hcon)] at hno
    simp at hno
  unfold parseDiffPath
  rw [mapM_partSrcDst_plain hparts]
  simp [List.map_map, Function.comp_def]

/-- C3 (amended): for every path on which `parseDiffPath` succeeds, if the
path contains no `=>` then the reconstructed source and destination agree
(the code reports "no rename").  The converse direction of the original
claim is refuted by `diffPathSrcDst_iff_counterexample`. -/
theorem diffPathSrcDst_eq_of_no_arrow (p o d : List Char)
    (h : diffPathSrcDst p = some (o, d))
    (hno : containsSub ['=', '>'] p = false) : o = d := by
  unfold diffPathSrcDst at h
  rw [parseDiffPath_plain hno] at h
  simp at h
  exact h.1.symm.trans h.2

/-- C3 (counterexample): the rename-form path consisting of the single
component `{x => x}` parses successfully, contains `=>`, and reconstructs
identical source and destination, refuting the "if and only if" of the
claim at this input. -/
theorem diffPathSrcDst_iff_counterexample :
    diffPathSrcDst ['{', 'x', ' ', '=', '>', ' ', 'x', '}'] = some (['x'], ['x']) ∧
      ¬((['x'] : List Char) = ['x'] ↔
        containsSub ['=', '>'] ['{', 'x', ' ', '=', '>', ' ', 'x', '}'] = false) := by
  decide

/-- Witness for `diffPathSrcDst_eq_of_no_arrow` at the concrete path
`a/b`. -/
theorem diffPathSrcDst_eq_of_no_arrow_witness :
    (['a', '/', 'b'] : List Char) = ['a', '/', 'b'] :=
  diffPathSrcDst_eq_of_no_arrow ['a', '/', 'b'] ['a', '/', 'b'] ['a', '/', 'b']
    (by decide) (by decide)

/-- C7: for every numstat line whose added or removed field is the literal
`-`, the parsed `FileDiff` reports that count as zero. -/
theorem parseFileDiff_dash_is_zero (line : List Char) (d : FileDiff)
    (h : parseFileDiff line = some d) :
    ((splitOnChar '\t' line).get? 0 = some ['-'] → d.linesAdded = 0) ∧
      ((splitOnChar '\t' line).get? 1 = some ['-'] → d.linesRemoved = 0) := by
  unfold parseFileDiff at h
  split at h
  case h_2 => exact absurd h (by simp)
  case h_1 a r p heq =>
    rw [heq]
    simp only [List.get?]
    constructor
    · intro ha
      obtain ha := Option.some.injEq .. ▸ ha
      rw [if_pos ha] at h
      simp only [Option.some_bind] at h
      rcases Option.bind_eq_some.mp h with ⟨lr, hlr, hmap⟩
      rcases Option.map_eq_some'.mp hmap with ⟨sd, hsd, hd⟩
      rw [← hd]
    · intro hr
      obtain hr := Option.some.injEq .. ▸ hr
      rw [if_pos hr] at h
      rcases Option.bind_eq_some.mp h with ⟨la, hla, hrest⟩
      simp only [Option.some_bind] at hrest
      rcases Option.map_eq_some'.mp hrest with ⟨sd, hsd, hd⟩
      rw [← hd]

/-- Witness for `parseFileDiff_dash_is_zero` at the line `-TAB-TABf`. -/
theorem parseFileDiff_dash_is_zero_witness :
    ((splitOnChar '\t' ['-', '\t', '-', '\t', 'f']).get? 0 = some ['-'] →
        (⟨['f'], 0, 0, []⟩ : FileDiff).linesAdded = 0) ∧
      ((splitOnChar '\t' ['-', '\t', '-', '\t', 'f']).get? 1 = some ['-'] →
        (⟨['f'], 0, 0, []⟩ : FileDiff).linesRemoved = 0) :=
  parseFileDiff_dash_is_zero ['-', '\t', '-', '\t', 'f'] ⟨['f'], 0, 0, []⟩ (by decide)

/-- C10: the parser yields one commit per blank line with no guard that any
header line preceded it: at the start of the input (or equivalently right
after a blank line, when the loop state is back at its initial value) a
blank line yields the completely zero-valued commit — empty hashes, names,
subject, zero date and no file diffs. -/
theorem parseCommits_blank_yields_empty :
    (∀ (c : Commit) (n : Nat) (rest : List (List Char)),
        parseLoop c n ([] :: rest) = ParseEvent.ok c :: parseLoop Commit.empty 0 rest) ∧
      (∀ rest : List (List Char),
        parseCommitsList ([] :: rest) =
          ParseEvent.ok ⟨[], [], [], [], 0, [], []⟩ :: parseCommitsList rest) := by
  constructor
  · intro c n rest
    rfl
  · intro rest
    rfl

theorem parseLoop_badSplit :
    ∀ (lines : List (List Char)) (c : Commit) (n : Nat) (plines : List (List Char)),
      badSplitAux n lines = some plines →
      ∃ pre cbad, parseLoop c n lines = pre ++ [ParseEvent.err cbad] ∧
        (∀ e ∈ pre, e.isOk = true) ∧ pre.length = countBlank plines := by
  intro lines
  induction lines with
  | nil => intro c n plines h; simp [badSplitAux] at h
  | cons line rest ih =>
    intro c n plines h
    simp only [badSplitAux] at h
    by_cases hbad : lineBad n line = true
    · rw [if_pos hbad] at h
      injection h with h
      subst h
      have hline : ¬(line = []) := by
        intro he
        subst he
        simp [lineBad] at hbad
      rcases n with _ | _ | _ | _ | _ | _ | m
      · simp [lineBad, hline] at hbad
      · simp [lineBad, hline] at hbad
      · simp [lineBad, hline] at hbad
      · simp [lineBad, hline] at hbad
      · have hatoi : atoi line = none := by
          simp [lineBad, hline] at hbad
          exact hbad
        refine ⟨[], c, ?_, by simp, by simp [countBlank]⟩
        simp [parseLoop, hline, hatoi]
      · simp [lineBad, hline] at hbad
      · have hpd : parseFileDiff line = none := by
          simp [lineBad, hline] at hbad
          exact hbad
        refine ⟨[], c, ?_, by simp, by simp [countBlank]⟩
        simp [parseLoop, hline, hpd]
    · rw [if_neg hbad] at h
      rcases Option.map_eq_some'.mp h with ⟨pre', hpre', hpl⟩
      subst hpl
      by_cases hline : line = []
      · subst hline
        rw [show nextPos n [] = 0 from by simp [nextPos]] at hpre'
        obtain ⟨pre, cbad, heq, hok, hlen⟩ := ih Commit.empty 0 pre' hpre'
        refine ⟨ParseEvent.ok c :: pre, cbad, ?_, ?_, ?_⟩
        · simp [parseLoop, heq]
        · intro e he
          rcases List.mem_cons.mp he with he | he
          · subst he; rfl
          · exact hok e he
        · simp only [countBlank] at hlen ⊢
          simp [List.countP_cons, hlen]
      · rw [show nextPos n line = n + 1 from by simp [nextPos, hline]] at hpre'
        have hcb : countBlank (line :: pre') = countBlank pre' := by
          simp [countBlank, List.countP_cons, List.isEmpty_iff, hline]
        rcases n with _ | _ | _ | _ | _ | _ | m
        · obtain ⟨pre, cbad, heq, hok, hlen⟩ := ih { c with hash := line } 1 pre' hpre'
          exact ⟨pre, cbad, by simp [parseLoop, hline, heq], hok, by rw [hlen, hcb]⟩
        · obtain ⟨pre, cbad, heq, hok, hlen⟩ := ih { c with shortHash := line } 2 pre' hpre'
          exact ⟨pre, cbad, by simp [parseLoop, hline, heq], hok, by rw [hlen, hcb]⟩
        · obtain ⟨pre, cbad, heq, hok, hlen⟩ := ih { c with authorName := line } 3 pre' hpre'
          exact ⟨pre, cbad, by simp [parseLoop, hline, heq], hok, by rw [hlen, hcb]⟩
        · obtain ⟨pre, cbad, heq, hok, hlen⟩ := ih { c with authorEmail := line } 4 pre' hpre'
          exact ⟨pre, cbad, by simp [parseLoop, hline, heq], hok, by rw [hlen, hcb]⟩
        · cases hatoi : atoi line with
          | none => simp [lineBad, hline, Option.isNone_iff_eq_none, hatoi] at hbad
          | some i =>
            obtain ⟨pre, cbad, heq, hok, hlen⟩ := ih { c with date := i } 5 pre' hpre'
            exact ⟨pre, cbad, by simp [parseLoop, hline, hatoi, heq], hok, by rw [hlen, hcb]⟩
        · obtain ⟨pre, cbad, heq, hok, hlen⟩ := ih { c with subject := line } 6 pre' hpre'
          exact ⟨pre, cbad, by simp [parseLoop, hline, heq], hok, by rw [hlen, hcb]⟩
        · cases hpd : parseFileDiff line with
          | none => simp [lineBad, hline, Option.isNone_iff_eq_none, hpd] at hbad
          | some dd =>
            obtain ⟨pre, cbad, heq, hok, hlen⟩ :=
              ih { c with fileDiffs := c.fileDiffs ++ [dd] } (m + 7) pre' hpre'
            exact ⟨pre, cbad, by simp [parseLoop, hline, hpd, heq], hok, by rw [hlen, hcb]⟩

/-- C6: on an input containing a malformed header or numstat line the
parser yields some fully parsed commits (one per blank line preceding the
first malformed line), then exactly one error event carrying the partial
commit, and terminates: the error is the last element of the yielded
sequence. -/
theorem parseCommits_error_terminates (lines plines : List (List Char))
    (h : badSplit lines = some plines) :
    ∃ pre c, parseCommitsList lines = pre ++ [ParseEvent.err c] ∧
      (∀ e ∈ pre, e.isOk = true) ∧ pre.length = countBlank plines :=
  parseLoop_badSplit lines Commit.empty 0 plines h

/-- Witness for `parseCommits_error_terminates`: a block whose date line is
not an integer. -/
theorem parseCommits_error_terminates_witness :
    ∃ pre c,
      parseCommitsList [['h'], ['s'], ['a'], ['e'], ['x']] =
        pre ++ [ParseEvent.err c] ∧
      (∀ e ∈ pre, e.isOk = true) ∧
      pre.length = countBlank [['h'], ['s'], ['a'], ['e']] :=
  parseCommits_error_terminates [['h'], ['s'], ['a'], ['e'], ['x']]
    [['h'], ['s'], ['a'], ['e']] (by decide)

end git

namespace gitB

/-- C8: `LimitDiffsByPath` yields exactly the commits of the input in
order (same length, one output commit per input commit, commits with an
empty filtered diff list included), each unchanged except that `fileDiffs`
keeps exactly the diffs whose path starts with one of the prefixes; with an
empty prefix list the input is returned unchanged. -/
theorem LimitDiffsByPath_frame (commits : List Commit) (paths : List String) :
    (LimitDiffsByPath commits paths).length = commits.length ∧
      LimitDiffsByPath commits paths =
        commits.map (fun c =>
          { c with fileDiffs :=
              if paths.isEmpty then c.fileDiffs
              else c.fileDiffs.filter (fun d => paths.any (fun p => d.path.startsWith p)) }) := by
  unfold LimitDiffsByPath
  by_cases hp : paths.isEmpty
  · simp [hp]
  · simp [hp]

end gitB

namespace backends

theorem pipeline_content (X Y : List spec.Commit) (b₁ b₂ : Bool) :
    ((((GobState.empty.add X).step b₁).add Y).step b₂).store ++
        ((((GobState.empty.add X).step b₁).add Y).step b₂).buffer = X ++ Y := by
  cases b₁ <;> cases b₂ <;>
    simp [GobState.empty, GobState.add, GobState.step, GobState.closeOpen]

theorem get_pipeline (X Y : List spec.Commit) (b₁ b₂ : Bool) :
    ((((GobState.empty.add X).step b₁).add Y).step b₂).get
        ((X ++ Y).map (fun c => c.hash)) = X ++ Y := by
  unfold GobState.get
  rw [pipeline_content]
  apply List.filter_eq_self.mpr
  intro c hc
  have : c.hash ∈ (X ++ Y).map (fun c => c.hash) := List.mem_map_of_mem _ hc
  simpa [List.contains] using this

/-- C9 (spec-modelled): after adding `X` and then `Y` with pairwise distinct
hashes, with a close/open optionally interposed at either point, `get` over
the union of the hashes yields every added commit exactly once — the result
is exactly `X ++ Y`, its size is `|X| + |Y|`, and the result of adding in
the other order is a permutation of it, so the outcome is independent of the
add order. -/
theorem gob_add_get_union (X Y : List spec.Commit) (b₁ b₂ b₃ b₄ : Bool)
    (_hdist : (X ++ Y).Pairwise (fun a b => a.hash ≠ b.hash)) :
    ((((GobState.empty.add X).step b₁).add Y).step b₂).get
        ((X ++ Y).map (fun c => c.hash)) = X ++ Y ∧
      (((((GobState.empty.add X).step b₁).add Y).step b₂).get
        ((X ++ Y).map (fun c => c.hash))).length = X.length + Y.length ∧
      (((((GobState.empty.add Y).step b₃).add X).step b₄).get
        ((Y ++ X).map (fun c => c.hash))).Perm
        (((((GobState.empty.add X).step b₁).add Y).step b₂).get
          ((X ++ Y).map (fun c => c.hash))) := by
  refine ⟨get_pipeline X Y b₁ b₂, ?_, ?_⟩
  · rw [get_pipeline X Y b₁ b₂]
    simp
  · rw [get_pipeline X Y b₁ b₂, get_pipeline Y X b₃ b₄]
    exact List.perm_append_comm

/-- Witness for `gob_add_get_union`: two one-commit sets with distinct
hashes, a close/open after the first add. -/
theorem gob_add_get_union_witness :
    ((((GobState.empty.add [(⟨"a", "", "", "", 0, "", false, []⟩ : spec.Commit)]).step
            true).add [(⟨"b", "", "", "", 0, "", false, []⟩ : spec.Commit)]).step false).get
        (([(⟨"a", "", "", "", 0, "", false, []⟩ : spec.Commit)] ++
            [(⟨"b", "", "", "", 0, "", false, []⟩ : spec.Commit)]).map (fun c => c.hash)) =
      [(⟨"a", "", "", "", 0, "", false, []⟩ : spec.Commit)] ++
        [(⟨"b", "", "", "", 0, "", false, []⟩ : spec.Commit)] ∧
      (((((GobState.empty.add [(⟨"a", "", "", "", 0, "", false, []⟩ : spec.Commit)]).step
              true).add [(⟨"b", "", "", "", 0, "", false, []⟩ : spec.Commit)]).step false).get
          (([(⟨"a", "", "", "", 0, "", false, []⟩ : spec.Commit)] ++
              [(⟨"b", "", "", "", 0, "", false, []⟩ : spec.Commit)]).map
            (fun c => c.hash))).length =
        [(⟨"a", "", "", "", 0, "", false, []⟩ : spec.Commit)].length +
          [(⟨"b", "", "", "", 0, "", false, []⟩ : spec.Commit)].length ∧
      (((((GobState.empty.add [(⟨"b", "", "", "", 0, "", false, []⟩ : spec.Commit)]).step
              false).add [(⟨"a", "", "", "", 0, "", false, []⟩ : spec.Commit)]).step true).get
          (([(⟨"b", "", "", "", 0, "", false, []⟩ : spec.Commit)] ++
              [(⟨"a", "", "", "", 0, "", false, []⟩ : spec.Commit)]).map
            (fun c => c.hash))).Perm
        (((((GobState.empty.add [(⟨"a", "", "", "", 0, "", false, []⟩ : spec.Commit)]).step
              true).add [(⟨"b", "", "", "", 0, "", false, []⟩ : spec.Commit)]).step false).get
          (([(⟨"a", "", "", "", 0, "", false, []⟩ : spec.Commit)] ++
              [(⟨"b", "", "", "", 0, "", false, []⟩ : spec.Commit)]).map (fun c => c.hash))) :=
  gob_add_get_union [⟨"a", "", "", "", 0, "", false, []⟩]
    [⟨"b", "", "", "", 0, "", false, []⟩] true false false true (by decide)

end backends

namespace tally

theorem mergeTime_comm (a b : Option Int) : mergeTime a b = mergeTime b a := by
  cases a <;> cases b <;> simp [mergeTime, max_comm]

theorem mergeTime_assoc (a b c : Option Int) :
    mergeTime (mergeTime a b) c = mergeTime a (mergeTime b c) := by
  cases a <;> cases b <;> cases c <;> simp [mergeTime, max_assoc]

theorem counts_merge_comm (a b : Counts) : a.merge b = b.merge a := by
  simp [Counts.merge, Nat.add_comm, Int.add_comm, mergeTime_comm, Finset.union_comm]

theorem counts_merge_assoc (a b c : Counts) :
    (a.merge b).merge c = a.merge (b.merge c) := by
  simp [Counts.merge, Nat.add_assoc, Int.add_assoc, mergeTime_assoc, Finset.union_assoc]

theorem counts_zero_merge (a : Counts) : Counts.zero.merge a = a := by
  simp [Counts.merge, Counts.zero, mergeTime]

theorem counts_merge_zero (a : Counts) : a.merge Counts.zero = a := by
  rw [counts_merge_comm]
  exact counts_zero_merge a

theorem tally_merge_comm (a b : Tally) : a.merge b = b.merge a := by
  ext q k
  all_goals simp [Tally.merge, counts_merge_comm, Bool.or_comm]

theorem tally_merge_assoc (a b c : Tally) : (a.merge b).merge c = a.merge (b.merge c) := by
  ext q k
  all_goals simp [Tally.merge, counts_merge_assoc, Bool.or_assoc]

theorem tally_zero_merge (a : Tally) : Tally.zero.merge a = a := by
  ext q k
  all_goals simp [Tally.merge, Tally.zero, counts_zero_merge]

theorem tally_merge_zero (a : Tally) : a.merge Tally.zero = a := by
  ext q k
  all_goals simp [Tally.merge, Tally.zero, counts_merge_zero]

theorem foldl_merge_commit (k : spec.Commit → Tally) :
    ∀ (cs : List spec.Commit) (t : Tally),
      cs.foldl (fun a c => a.merge (k c)) t =
        t.merge (cs.foldl (fun a c => a.merge (k c)) Tally.zero) := by
  intro cs
  induction cs with
  | nil => intro t; simp [tally_merge_zero]
  | cons c rest ih =>
    intro t
    simp only [List.foldl_cons]
    rw [ih (t.merge (k c)), ih (Tally.zero.merge (k c)), tally_zero_merge,
      tally_merge_assoc]

theorem sequentialTally_append (key : spec.Commit → String) (wtree : List String)
    (cm : Bool) (xs ys : List spec.Commit) :
    sequentialTally key wtree cm (xs ++ ys) =
      (sequentialTally key wtree cm xs).merge (sequentialTally key wtree cm ys) := by
  unfold sequentialTally
  rw [List.foldl_append]
  exact foldl_merge_commit (commitTally key wtree cm) ys _

theorem foldl_merge_tallies :
    ∀ (ts : List Tally) (t : Tally),
      ts.foldl Tally.merge t = t.merge (ts.foldl Tally.merge Tally.zero) := by
  intro ts
  induction ts with
  | nil => intro t; simp [tally_merge_zero]
  | cons x rest ih =>
    intro t
    simp only [List.foldl_cons]
    rw [ih (t.merge x), ih (Tally.zero.merge x), tally_zero_merge, tally_merge_assoc]

/-- C1 (spec-modelled): tallying any partition of a commit set with the
parallel engine — each chunk tallied by a private sequential engine, the
partial tallies merged — equals tallying the whole set with the sequential
engine; moreover the tally merge is commutative and associative, so the
merge order of the partial tallies is not observable. -/
theorem parallel_eq_sequential_tally :
    (∀ (key : spec.Commit → String) (wtree : List String) (cm : Bool)
        (chunks : List (List spec.Commit)),
        parallelTally key wtree cm chunks = sequentialTally key wtree cm chunks.flatten) ∧
      (∀ a b : Tally, a.merge b = b.merge a) ∧
      (∀ a b c : Tally, (a.merge b).merge c = a.merge (b.merge c)) := by
  refine ⟨?_, tally_merge_comm, tally_merge_assoc⟩
  intro key wtree cm chunks
  induction chunks with
  | nil => rfl
  | cons ch rest ih =>
    unfold parallelTally at ih ⊢
    simp only [List.map_cons, List.foldl_cons]
    rw [foldl_merge_tallies, tally_zero_merge, ih, ← sequentialTally_append]
    simp

end tally

namespace spec

theorem parseNumstat_ne_empty {l : String} {d : FileDiff} (h : parseNumstat l = some d) :
    l ≠ "" := by
  intro he
  subst he
  simp [parseNumstat, git.parseFileDiff, git.splitOnChar] at h

theorem ParseCommitsLoop_numstat :
    ∀ (ns : List String) (c : Commit) (m : Nat) (ds : List FileDiff) (rest : List String),
      ns.mapM parseNumstat = some ds →
      ParseCommitsLoop c (m + 7) (ns ++ rest) =
        ParseCommitsLoop { c with fileDiffs := c.fileDiffs ++ ds } (m + 7 + ns.length) rest := by
  intro ns
  induction ns with
  | nil =>
    intro c m ds rest h
    simp only [List.mapM_nil] at h
    injection h with h
    subst h
    simp
  | cons l tail ih =>
    intro c m ds rest h
    rw [List.mapM_cons] at h
    rcases Option.bind_eq_some.mp (by simpa using h) with ⟨d, hd, hrest⟩
    rcases Option.bind_eq_some.mp hrest with ⟨ds', hds', hcons⟩
    injection hcons with hcons
    subst hcons
    have hl : ¬(l = "") := parseNumstat_ne_empty hd
    have step : ParseCommitsLoop c (m + 7) ((l :: tail) ++ rest) =
        ParseCommitsLoop { c with fileDiffs := c.fileDiffs ++ [d] } (m + 8) (tail ++ rest) := by
      simp [ParseCommitsLoop, hl, hd]
    rw [step, show m + 8 = (m + 1) + 7 from rfl, ih _ (m + 1) ds' rest hds',
      show m + 1 + 7 + tail.length = m + 7 + (l :: tail).length from by simp; omega]
    simp

/-- C4 (spec-modelled): for a well-formed commit block — seven nonempty
header lines whose fifth entry parses as an integer date, then numstat lines
that all parse, then a blank line — the parser yields one commit whose
`isMerge` field is true exactly when the space-separated parent hash list on
the sixth header line has two or more entries. -/
theorem ParseCommits_isMerge_iff (h sh an ae dateStr parents subj : String)
    (ns rest : List String) (i : Int) (ds : List FileDiff)
    (hh : h ≠ "") (hsh : sh ≠ "") (han : an ≠ "") (hae : ae ≠ "")
    (hdate : git.atoi dateStr.toList = some i) (hpar : parents ≠ "") (hsubj : subj ≠ "")
    (hns : ns.mapM parseNumstat = some ds) :
    ParseCommits (([h, sh, an, ae, dateStr, parents, subj] ++ ns ++ [""]) ++ rest) =
        ParseEvent.ok
            ⟨h, sh, an, ae, i, subj, decide (2 ≤ (parents.splitOn " ").length), ds⟩ ::
          ParseCommits rest ∧
      ((⟨h, sh, an, ae, i, subj, decide (2 ≤ (parents.splitOn " ").length), ds⟩ :
          Commit).isMerge = true ↔ 2 ≤ (parents.splitOn " ").length) := by
  have hds : dateStr ≠ "" := by
    intro he
    rw [he] at hdate
    simp [git.atoi, git.digitsToNat] at hdate
  constructor
  · unfold ParseCommits
    have hdate' : git.atoi dateStr.data = some i := hdate
    have hstep : ParseCommitsLoop Commit.empty 0
        (([h, sh, an, ae, dateStr, parents, subj] ++ ns ++ [""]) ++ rest) =
        ParseCommitsLoop
          ⟨h, sh, an, ae, i, subj, decide (2 ≤ (parents.splitOn " ").length), []⟩ 7
          (ns ++ ("" :: rest)) := by
      simp [ParseCommitsLoop, hh, hsh, han, hae, hds, hdate', hpar, hsubj, Commit.empty]
    rw [hstep, ParseCommitsLoop_numstat ns _ 0 ds ("" :: rest) hns]
    simp [ParseCommitsLoop, Commit.empty]
  · simp

/-- Witness for `ParseCommits_isMerge_iff`: a two-parent (merge) commit
block with one numstat line. -/
theorem ParseCommits_isMerge_iff_witness :
    ParseCommits ((["h", "s", "a", "e", "5", "p1 p2", "subj"] ++
          ["1\t2\tf.txt"] ++ [""]) ++ []) =
        ParseEvent.ok
            ⟨"h", "s", "a", "e", 5, "subj",
              decide (2 ≤ (("p1 p2").splitOn " ").length), [⟨"f.txt", 1, 2, ""⟩]⟩ ::
          ParseCommits [] ∧
      ((⟨"h", "s", "a", "e", 5, "subj", decide (2 ≤ (("p1 p2").splitOn " ").length),
          [⟨"f.txt", 1, 2, ""⟩]⟩ : Commit).isMerge = true ↔
        2 ≤ (("p1 p2").splitOn " ").length) :=
  ParseCommits_isMerge_iff "h" "s" "a" "e" "5" "p1 p2" "subj" ["1\t2\tf.txt"] [] 5
    [⟨"f.txt", 1, 2, ""⟩] (by decide) (by decide) (by decide) (by decide) (by rfl)
    (by decide) (by decide) (by rfl)

end spec

namespace treecmd

/-- C5 (counterexample): a node with exactly one child whose tally differs
from its own is nevertheless collapsed into the child: the output contains
only the child's line (with the joined path), not a line for the node,
refuting the claim that tally equality is required for collapsing. -/
theorem toLines_collapse_counterexample :
    toLines
        (tally.TreeNode.node ⟨"Ann", "ann@x", 5, 1, 0, 0, 0⟩
          [("a", tally.TreeNode.node ⟨"Bob", "bob@x", 2, 1, 0, 0, 0⟩ [] true)] true)
        "." 0 "" [] ⟨tally.TallyMode.CommitMode, 100, false⟩ [] =
      [⟨"", "a", "(2)", ⟨"Bob", "bob@x", 2, 1, 0, 0, 0⟩, true, true, false, false⟩] ∧
      (⟨"Ann", "ann@x", 5, 1, 0, 0, 0⟩ : tally.FinalTally) ≠
        ⟨"Bob", "bob@x", 2, 1, 0, 0, 0⟩ := by
  constructor
  · rw [toLines.eq_def]
    simp [tally.TreeNode.children, tally.NoDiffPathname]
    rw [toLines.eq_def]
    simp [tally.TreeNode.children, tally.TreeNode.tally, tally.TreeNode.inWorkTree,
      tally.NoDiffPathname, joinPath, indentOf, fmtTallyMetric, fmtNumber, sortKeys,
      keyLE, finalChildIndexAux, toLinesChildren]
    rfl
  · decide

/-- C5 (amended): during tree output post-processing a node is collapsed
into its single child — the recursion continuing at the child with the path
components joined — exactly when the node has one child and the depth is
below the limit; no condition on the two tallies is checked, so a
single-child node whose tally differs from its child's is collapsed too. -/
theorem toLines_single_child_collapses (t : tally.FinalTally) (k : String)
    (v : tally.TreeNode) (w : Bool) (path : String) (depth : Nat) (lastAuthor : String)
    (isFinalChild : List Bool) (opts : printTreeOpts) (lines : List treeOutputLine)
    (hpath : path ≠ tally.NoDiffPathname) (hdepth : depth < opts.maxDepth) :
    toLines (tally.TreeNode.node t [(k, v)] w) path depth lastAuthor isFinalChild opts lines =
      toLines v (joinPath path k) (depth + 1) lastAuthor isFinalChild opts lines := by
  rw [toLines.eq_def]
  have hngt : ¬ depth > opts.maxDepth := by omega
  simp [tally.TreeNode.children, hpath, hngt, hdepth]

/-- Witness for `toLines_single_child_collapses` at a concrete
single-child node with differing tallies. -/
theorem toLines_single_child_collapses_witness :
    toLines
        (tally.TreeNode.node ⟨"Ann", "ann@x", 5, 1, 0, 0, 0⟩
          [("a", tally.TreeNode.node ⟨"Bob", "bob@x", 2, 1, 0, 0, 0⟩ [] true)] true)
        "." 0 "" [] ⟨tally.TallyMode.CommitMode, 100, false⟩ [] =
      toLines (tally.TreeNode.node ⟨"Bob", "bob@x", 2, 1, 0, 0, 0⟩ [] true)
        (joinPath "." "a") (0 + 1) "" [] ⟨tally.TallyMode.CommitMode, 100, false⟩ [] :=
  toLines_single_child_collapses ⟨"Ann", "ann@x", 5, 1, 0, 0, 0⟩ "a"
    (tally.TreeNode.node ⟨"Bob", "bob@x", 2, 1, 0, 0, 0⟩ [] true) true "." 0 "" []
    ⟨tally.TallyMode.CommitMode, 100, false⟩ [] (by decide) (by decide)

end treecmd

namespace git

theorem splitOnChar_no_sep {sep : Char} :
    ∀ {l : List Char}, sep ∉ l → splitOnChar sep l = [l] := by
  intro l
  induction l with
  | nil => intro _; rfl
  | cons c t ih =>
    intro h
    have hc : ¬(c = sep) := fun he => h (he ▸ List.mem_cons_self _ _)
    have ht : sep ∉ t := fun hm => h (List.mem_cons_of_mem _ hm)
    simp [splitOnChar, hc, ih ht]

theorem splitOnChar_append_sep {sep : Char} :
    ∀ {comp : List Char}, sep ∉ comp → ∀ (X : List Char),
      splitOnChar sep (comp ++ sep :: X) = comp :: splitOnChar sep X := by
  intro comp
  induction comp with
  | nil => intro _ X; simp [splitOnChar]
  | cons c t ih =>
    intro h X
    have hc : ¬(c = sep) := fun he => h (he ▸ List.mem_cons_self _ _)
    have ht : sep ∉ t := fun hm => h (List.mem_cons_of_mem _ hm)
    rw [List.cons_append]
    rw [show splitOnChar sep (c :: (t ++ sep :: X)) =
      (match splitOnChar sep (t ++ sep :: X) with
        | [] => [[c]]
        | h :: r => (c :: h) :: r) from by simp [splitOnChar, hc]]
    rw [ih ht X]

theorem split_intercalateSep {sep : Char} :
    ∀ {comps : List (List Char)}, comps ≠ [] →
      (∀ comp ∈ comps, sep ∉ comp) →
      splitOnChar sep (intercalateSep sep comps) = comps := by
  intro comps
  induction comps with
  | nil => intro h _; exact absurd rfl h
  | cons comp rest ih =>
    intro _ hno
    cases rest with
    | nil =>
      exact splitOnChar_no_sep (hno comp (List.mem_cons_self _ _))
    | cons comp2 rest2 =>
      rw [show intercalateSep sep (comp :: comp2 :: rest2) =
        comp ++ sep :: intercalateSep sep (comp2 :: rest2) from rfl]
      rw [splitOnChar_append_sep (hno comp (List.mem_cons_self _ _)),
        ih (by simp) (fun c hc => hno c (List.mem_cons_of_mem _ hc))]

theorem sepCheck_head_ne {c : Char} (hq : ¬(c = '"')) (hs : ¬(c = ' ')) (X : List Char) :
    sepCheck (c :: X) = none := by
  unfold sepCheck
  split
  · next heq => exact absurd (List.cons.injEq .. ▸ heq).1 hq
  · next heq => exact absurd (List.cons.injEq .. ▸ heq).1 hs
  · rfl

theorem sepCheck_no_eq {l : List Char} (h : '=' ∉ l) : sepCheck l = none := by
  unfold sepCheck
  split
  · exact absurd (by simp) h
  · exact absurd (by simp) h
  · rfl

theorem noNL_of_chars {l : List Char} (h : ∀ ch ∈ l, ¬(ch = '\n')) : noNL l = true := by
  simp [noNL]
  exact h

end git

namespace git

theorem containsSub_arrow_eq_false {part : List Char} (h : '=' ∉ part) :
    containsSub ['=', '>'] part = false := by
  induction part with
  | nil => rfl
  | cons c t ih =>
    have hc : ¬(c = '=') := fun he => h (he ▸ List.mem_cons_self _ _)
    have ht : '=' ∉ t := fun hm => h (List.mem_cons_of_mem _ hm)
    simp [containsSub, beginsWith, ih ht]
    intro he
    exact absurd he.symm hc

theorem containsSub_append_left {n l : List Char} (x : List Char)
    (h : containsSub n l = true) : containsSub n (x ++ l) = true := by
  induction x with
  | nil => simpa using h
  | cons c t ih => exact containsSub_cons_of c ih

theorem containsSub_arrow_rename (old nw : List Char) :
    containsSub ['=', '>']
      ('{' :: (old ++ ' ' :: '=' :: '>' :: ' ' :: (nw ++ ['}']))) = true := by
  rw [show '{' :: (old ++ ' ' :: '=' :: '>' :: ' ' :: (nw ++ ['}'])) =
    ('{' :: old ++ [' ']) ++ '=' :: '>' :: (' ' :: (nw ++ ['}'])) from by simp]
  apply containsSub_append_left
  apply containsSub_of_beginsWith
  simp [beginsWith]

theorem g2loop_eval (g1 nw : List Char) (hnw : nw ≠ [])
    (hnl : ∀ ch ∈ nw, ¬(ch = '\n')) :
    g2loop g1 (nw ++ ['}']) = some (g1, nw) := by
  unfold g2loop
  rw [show (nw ++ ['}']).length = nw.length + 1 from by simp]
  rw [g2At]
  rw [show (nw ++ ['}']).drop (nw.length + 1) = [] from by
    apply List.drop_eq_nil_of_le
    simp]
  rw [show postG2 [] = false from rfl, Bool.and_false, if_neg (by simp)]
  cases nw with
  | nil => exact absurd rfl hnw
  | cons n0 nt =>
    rw [show (n0 :: nt).length = nt.length + 1 from rfl, g2At]
    rw [show ((n0 :: nt) ++ ['}']).take (nt.length + 1) = n0 :: nt from by
      rw [show nt.length + 1 = (n0 :: nt).length from rfl]
      exact List.take_left _ _]
    rw [show ((n0 :: nt) ++ ['}']).drop (nt.length + 1) = ['}'] from by
      rw [show nt.length + 1 = (n0 :: nt).length from rfl]
      exact List.drop_left _ _]
    rw [noNL_of_chars hnl, show postG2 ['}'] = true from rfl, Bool.and_true, if_pos rfl]

theorem sepCheck_body_drop (old nw : List Char)
    (hnweq : '=' ∉ nw) :
    ∀ k, old.length < k →
      sepCheck ((old ++ ' ' :: '=' :: '>' :: ' ' :: (nw ++ ['}'])).drop k) = none := by
  intro k hk
  obtain ⟨j, rfl, hj⟩ : ∃ j, k = old.length + j ∧ 1 ≤ j :=
    ⟨k - old.length, by omega, by omega⟩
  rw [List.drop_append]
  rcases j with _ | _ | _ | _ | j'
  · omega
  · exact sepCheck_head_ne (by decide) (by decide) _
  · exact sepCheck_head_ne (by decide) (by decide) _
  · show sepCheck (' ' :: (nw ++ ['}'])) = none
    apply sepCheck_no_eq
    intro hmem
    rcases List.mem_cons.mp hmem with he | hmem2
    · exact absurd he.symm (by decide)
    · rcases List.mem_append.mp hmem2 with hm | hm
      · exact hnweq hm
      · rcases List.mem_singleton.mp hm with he
        exact absurd he.symm (by decide)
  · show sepCheck ((nw ++ ['}']).drop j') = none
    apply sepCheck_no_eq
    intro hmem
    have hmem2 := List.mem_of_mem_drop hmem
    rcases List.mem_append.mp hmem2 with hm | hm
    · exact hnweq hm
    · rcases List.mem_singleton.mp hm with he
      exact absurd he.symm (by decide)

theorem g1At_of_sepCheck_none {l : List Char} {n : Nat}
    (h : sepCheck (l.drop (n + 1)) = none) : g1At l (n + 1) = g1At l n := by
  rw [g1At, h]
  simp

theorem head_append_ne_quote {l : List Char} (hl : l ≠ []) (hq : '"' ∉ l)
    (X : List Char) : ¬(l ++ X).head? = some ('"' : Char) := by
  obtain ⟨a, b, hab⟩ : ∃ a b, l = a :: b := by
    cases l with
    | nil => exact absurd rfl hl
    | cons a b => exact ⟨a, b, rfl⟩
  rw [hab]
  simp only [List.cons_append, List.head?_cons]
  intro he
  injection he with he
  exact hq (by rw [hab, he]; exact List.mem_cons_self _ _)

theorem g1At_body_eval (old nw : List Char) (hold : old ≠ []) (hnw : nw ≠ [])
    (_holdq : '"' ∉ old) (holdn : '\n' ∉ old)
    (hnweq : '=' ∉ nw) (hnwq : '"' ∉ nw) (hnwn : '\n' ∉ nw) :
    ∀ d, g1At (old ++ ' ' :: '=' :: '>' :: ' ' :: (nw ++ ['}'])) (old.length + d) =
      some (old, nw) := by
  have hpos : 0 < old.length := List.length_pos.mpr hold
  intro d
  induction d with
  | zero =>
    rw [show old.length + 0 = (old.length - 1) + 1 from by omega]
    rw [g1At]
    rw [show old.length - 1 + 1 = old.length from by omega]
    rw [show (old ++ ' ' :: '=' :: '>' :: ' ' :: (nw ++ ['}'])).take old.length =
      old from List.take_left _ _]
    rw [show (old ++ ' ' :: '=' :: '>' :: ' ' :: (nw ++ ['}'])).drop old.length =
      ' ' :: '=' :: '>' :: ' ' :: (nw ++ ['}']) from List.drop_left _ _]
    rw [noNL_of_chars (fun ch hm he => holdn (he ▸ hm)), if_pos rfl]
    rw [show sepCheck (' ' :: '=' :: '>' :: ' ' :: (nw ++ ['}'])) =
      some (nw ++ ['}']) from rfl]
    rw [show (match some (nw ++ ['}']) with
      | some rest => quoteAlt (g2loop old) rest
      | none => none) = quoteAlt (g2loop old) (nw ++ ['}']) from rfl]
    rw [show quoteAlt (g2loop old) (nw ++ ['}']) = g2loop old (nw ++ ['}']) from by
      unfold quoteAlt
      rw [if_neg (head_append_ne_quote hnw hnwq ['}'])]]
    rw [g2loop_eval old nw hnw (fun ch hm he => hnwn (he ▸ hm))]
    simp
  | succ d ih =>
    rw [show old.length + (d + 1) = (old.length + d) + 1 from by omega]
    rw [g1At_of_sepCheck_none (sepCheck_body_drop old nw hnweq (old.length + d + 1)
      (by omega))]
    exact ih

theorem findRename_component (old nw : List Char) (hold : old ≠ []) (hnw : nw ≠ [])
    (holdq : '"' ∉ old) (holdn : '\n' ∉ old)
    (hnweq : '=' ∉ nw) (hnwq : '"' ∉ nw) (hnwn : '\n' ∉ nw) :
    findRename ('{' :: (old ++ ' ' :: '=' :: '>' :: ' ' :: (nw ++ ['}']))) =
      some (old, nw) := by
  have hm : matchAt ('{' :: (old ++ ' ' :: '=' :: '>' :: ' ' :: (nw ++ ['}']))) =
      some (old, nw) := by
    rw [show matchAt ('{' :: (old ++ ' ' :: '=' :: '>' :: ' ' :: (nw ++ ['}']))) =
      quoteAlt g1loop (old ++ ' ' :: '=' :: '>' :: ' ' :: (nw ++ ['}'])) from rfl]
    rw [show quoteAlt g1loop (old ++ ' ' :: '=' :: '>' :: ' ' :: (nw ++ ['}'])) =
      g1loop (old ++ ' ' :: '=' :: '>' :: ' ' :: (nw ++ ['}'])) from by
        unfold quoteAlt
        rw [if_neg (head_append_ne_quote hold holdq _)]]
    unfold g1loop
    rw [show (old ++ ' ' :: '=' :: '>' :: ' ' :: (nw ++ ['}'])).length =
      old.length + (nw.length + 5) from by simp]
    exact g1At_body_eval old nw hold hnw holdq holdn hnweq hnwq hnwn (nw.length + 5)
  rw [findRename]
  rw [hm]
  rfl

theorem mapM_partSrcDst_mid {pre suf : List (List Char)} {rc : List Char}
    {g : List Char × List Char}
    (hpre : ∀ part ∈ pre, containsSub ['=', '>'] part = false)
    (hsuf : ∀ part ∈ suf, containsSub ['=', '>'] part = false)
    (hrc : partSrcDst rc = some g) :
    List.mapM partSrcDst (pre ++ rc :: suf) =
      some (pre.map (fun p => (goFmt p, goFmt p)) ++
        g :: suf.map (fun p => (goFmt p, goFmt p))) := by
  induction pre with
  | nil =>
    rw [List.nil_append, List.mapM_cons, hrc, mapM_partSrcDst_plain hsuf]
    rfl
  | cons p ps ih =>
    rw [List.cons_append, List.mapM_cons, partSrcDst_plain (hpre p (List.mem_cons_self _ _)),
      ih (fun part hp => hpre part (List.mem_cons_of_mem _ hp))]
    rfl

/-- C2 (amended): `parseDiffPath` reconstructs `prefix + old + suffix` and
`prefix + new + suffix` when the brace fragment occupies an entire path
component, i.e. for paths of the form
`pre/\x7bold => new\x7d/suf` (the fragment may also be the first or last
component), with `old` and `new` nonempty and free of `=`, `"`, `/`, `%`
and newline, `old ≠ new`, and the remaining components free of `=`, `/`
and `%` (a `%` anywhere in a written piece is processed by `fmt.Fprintf`
as a directive and mangles the output, see `goFmt`).
When the fragment sits inside a component with surrounding text the code
drops that text (see `parseDiffPath_infix_fragment_counterexample`), so the
original claim's "may occur in any path component" is restricted to
whole-component fragments. -/
theorem parseDiffPath_component_rename
    (pre suf : List (List Char)) (old nw : List Char)
    (hplain : ∀ part ∈ pre ++ suf, '=' ∉ part ∧ '/' ∉ part ∧ '%' ∉ part)
    (hold : old ≠ []) (hnw : nw ≠ [])
    (holdc : ∀ ch ∈ old, ¬(ch = '"') ∧ ¬(ch = '/') ∧ ¬(ch = '\n'))
    (hnwc : ∀ ch ∈ nw, ¬(ch = '=') ∧ ¬(ch = '"') ∧ ¬(ch = '/') ∧ ¬(ch = '\n'))
    (holdp : '%' ∉ old) (hnwp : '%' ∉ nw)
    (hne : old ≠ nw) :
    parseDiffPath (intercalateSep '/'
        (pre ++ ('{' :: (old ++ ' ' :: '=' :: '>' :: ' ' :: (nw ++ ['}']))) :: suf)) =
      some (intercalateSep '/' (pre ++ old :: suf),
        intercalateSep '/' (pre ++ nw :: suf)) := by
  have hrcslash : '/' ∉ '{' :: (old ++ ' ' :: '=' :: '>' :: ' ' :: (nw ++ ['}'])) := by
    intro hm
    rcases List.mem_cons.mp hm with he | hm
    · exact absurd he (by decide)
    · rcases List.mem_append.mp hm with hm | hm
      · exact (holdc _ hm).2.1 rfl
      · rcases List.mem_cons.mp hm with he | hm
        · exact absurd he (by decide)
        · rcases List.mem_cons.mp hm with he | hm
          · exact absurd he (by decide)
          · rcases List.mem_cons.mp hm with he | hm
            · exact absurd he (by decide)
            · rcases List.mem_cons.mp hm with he | hm
              · exact absurd he (by decide)
              · rcases List.mem_append.mp hm with hm | hm
                · exact (hnwc _ hm).2.2.1 rfl
                · rcases List.mem_singleton.mp hm with he
                  exact absurd he (by decide)
  have hmemsplit : ∀ comps : List (List Char),
      (∀ comp ∈ comps, '/' ∉ comp) → comps ≠ [] →
      splitOnChar '/' (intercalateSep '/' comps) = comps :=
    fun comps h hne2 => split_intercalateSep hne2 h
  have hsplit : splitOnChar '/' (intercalateSep '/'
      (pre ++ ('{' :: (old ++ ' ' :: '=' :: '>' :: ' ' :: (nw ++ ['}']))) :: suf)) =
      pre ++ ('{' :: (old ++ ' ' :: '=' :: '>' :: ' ' :: (nw ++ ['}']))) :: suf := by
    apply hmemsplit _ _ (by simp)
    intro comp hc
    rcases List.mem_append.mp hc with hm | hm
    · exact (hplain comp (List.mem_append.mpr (Or.inl hm))).2.1
    · rcases List.mem_cons.mp hm with he | hm
      · rw [he]; exact hrcslash
      · exact (hplain comp (List.mem_append.mpr (Or.inr hm))).2.1
  have hpre2 : ∀ part ∈ pre, containsSub ['=', '>'] part = false := fun part hp =>
    containsSub_arrow_eq_false (hplain part (List.mem_append.mpr (Or.inl hp))).1
  have hsuf2 : ∀ part ∈ suf, containsSub ['=', '>'] part = false := fun part hp =>
    containsSub_arrow_eq_false (hplain part (List.mem_append.mpr (Or.inr hp))).1
  have hrc : partSrcDst ('{' :: (old ++ ' ' :: '=' :: '>' :: ' ' :: (nw ++ ['}']))) =
      some (old, nw) := by
    unfold partSrcDst
    rw [if_pos (containsSub_arrow_rename old nw)]
    rw [findRename_component old nw hold hnw (fun hm => (holdc _ hm).1 rfl)
      (fun hm => (holdc _ hm).2.2 rfl) (fun hm => (hnwc _ hm).1 rfl)
      (fun hm => (hnwc _ hm).2.1 rfl) (fun hm => (hnwc _ hm).2.2.2 rfl)]
    simp only [Option.map_some']
    rw [goFmt_no_pct holdp, goFmt_no_pct hnwp]
  unfold parseDiffPath
  rw [hsplit, mapM_partSrcDst_mid hpre2 hsuf2 hrc]
  simp only [Option.map_some']
  have hpre3 : ∀ p ∈ pre, '%' ∉ p := fun p hp =>
    (hplain p (List.mem_append.mpr (Or.inl hp))).2.2
  have hsuf3 : ∀ p ∈ suf, '%' ∉ p := fun p hp =>
    (hplain p (List.mem_append.mpr (Or.inr hp))).2.2
  have hfst : ((pre.map (fun p => (goFmt p, goFmt p)) ++
      ((old, nw) : List Char × List Char) ::
        suf.map (fun p => (goFmt p, goFmt p))).map Prod.fst) =
      pre ++ old :: suf := by
    simp only [List.map_append, List.map_cons, List.map_map, Function.comp_def]
    rw [map_goFmt_self hpre3, map_goFmt_self hsuf3]
  have hsnd : ((pre.map (fun p => (goFmt p, goFmt p)) ++
      ((old, nw) : List Char × List Char) ::
        suf.map (fun p => (goFmt p, goFmt p))).map Prod.snd) =
      pre ++ nw :: suf := by
    simp only [List.map_append, List.map_cons, List.map_map, Function.comp_def]
    rw [map_goFmt_self hpre3, map_goFmt_self hsuf3]
  rw [hfst, hsnd]
  have hneq : intercalateSep '/' (pre ++ nw :: suf) ≠
      intercalateSep '/' (pre ++ old :: suf) := by
    intro he
    have h1 : splitOnChar '/' (intercalateSep '/' (pre ++ nw :: suf)) =
        pre ++ nw :: suf := by
      apply hmemsplit _ _ (by simp)
      intro comp hc
      rcases List.mem_append.mp hc with hm | hm
      · exact (hplain comp (List.mem_append.mpr (Or.inl hm))).2.1
      · rcases List.mem_cons.mp hm with heq | hm
        · rw [heq]; intro hmm; exact (hnwc _ hmm).2.2.1 rfl
        · exact (hplain comp (List.mem_append.mpr (Or.inr hm))).2.1
    have h2 : splitOnChar '/' (intercalateSep '/' (pre ++ old :: suf)) =
        pre ++ old :: suf := by
      apply hmemsplit _ _ (by simp)
      intro comp hc
      rcases List.mem_append.mp hc with hm | hm
      · exact (hplain comp (List.mem_append.mpr (Or.inl hm))).2.1
      · rcases List.mem_cons.mp hm with heq | hm
        · rw [heq]; intro hmm; exact (holdc _ hmm).2.1 rfl
        · exact (hplain comp (List.mem_append.mpr (Or.inr hm))).2.1
    rw [he, h2] at h1
    have := (List.append_cancel_left h1)
    injection this with h3
    exact hne h3
  rw [if_neg hneq]

/-- C2 (counterexample): for the single-component path `a\x7b1 => 2\x7db` the
claim expects source `a1b` and destination `a2b`, but the code keeps only
the regexp capture groups, dropping the component text around the braces,
and returns `1` and `2`. -/
theorem parseDiffPath_infix_fragment_counterexample :
    parseDiffPath ['a', '{', '1', ' ', '=', '>', ' ', '2', '}', 'b'] =
        some (['1'], ['2']) ∧
      (['1'] : List Char) ≠ ['a', '1', 'b'] ∧ (['2'] : List Char) ≠ ['a', '2', 'b'] := by
  decide

/-- Witness for `parseDiffPath_component_rename` at the path
`foo/\x7bold => new\x7d/bar.txt` of the specification's own example. -/
theorem parseDiffPath_component_rename_witness :
    parseDiffPath (intercalateSep '/'
        ([['f', 'o', 'o']] ++
          ('{' :: (['o', 'l', 'd'] ++ ' ' :: '=' :: '>' :: ' ' ::
            (['n', 'e', 'w'] ++ ['}']))) :: [['b', 'a', 'r', '.', 't', 'x', 't']])) =
      some (intercalateSep '/' ([['f', 'o', 'o']] ++
          ['o', 'l', 'd'] :: [['b', 'a', 'r', '.', 't', 'x', 't']]),
        intercalateSep '/' ([['f', 'o', 'o']] ++
          ['n', 'e', 'w'] :: [['b', 'a', 'r', '.', 't', 'x', 't']])) :=
  parseDiffPath_component_rename [['f', 'o', 'o']] [['b', 'a', 'r', '.', 't', 'x', 't']]
    ['o', 'l', 'd'] ['n', 'e', 'w'] (by decide) (by decide) (by decide) (by decide)
    (by decide) (by decide) (by decide) (by decide)

end git
